import Mathlib

/-!
Verification of the JD-Scanner summarization core.

The repository's `chain.py` (JobSummaryChain) drives a token-budgeted
map-reduce summarization pipeline.  The modules `token_counter.py`
(SimpleTokenCounter, ContentPreprocessor) and `mapreduce_chain.py`
(MapReduceJobChain) are imported by `chain.py` but are absent from the
available sources, so those components are modelled from the spec; the
dispatch logic of `JobSummaryChain.run_summary` and the prompt templates
of `lang_template.py` are embedded from the source itself.
-/

set_option maxRecDepth 100000

namespace JDScanner

/-- Modelled from the spec: `estimate_tokens` of the missing `token_counter.py`.
The spec fixes a deterministic, pure characters-per-token heuristic
(characters divided by a constant ratio, e.g. 4). -/
def estimate_tokens (text : String) : Nat :=
  text.length / 4

inductive RecommendedAction where
  | direct
  | chunk
  | reject
  deriving DecidableEq, Repr

structure ContentStats where
  char_count : Nat
  estimated_tokens : Nat
  recommended_action : RecommendedAction
  deriving DecidableEq, Repr

structure ValidationResult where
  stats : ContentStats
  needs_processing : Bool
  deriving DecidableEq, Repr

/-- Threshold configuration of the token counter / map-reduce chain, modelled
from the spec (direct_limit, chunk_limit, reject_limit, per-chunk budget and
the fixed retry count of the map stage). -/
structure TokenConfig where
  direct_limit : Nat
  chunk_limit : Nat
  reject_limit : Nat
  max_tokens_per_chunk : Nat
  max_retries : Nat
  deriving DecidableEq, Repr

/-- Modelled from the spec: `validate_content_size` of the missing
`token_counter.py`.  Classifies by estimated token count against the three
thresholds: at most `direct_limit` is DIRECT, at most `reject_limit` is
CHUNK, above that REJECT; `needs_processing` holds exactly when the estimate
exceeds `direct_limit`. -/
def validate_content_size (cfg : TokenConfig) (text : String) : ValidationResult :=
  { stats :=
      { char_count := text.length
        estimated_tokens := estimate_tokens text
        recommended_action :=
          if estimate_tokens text ≤ cfg.direct_limit then .direct
          else if estimate_tokens text ≤ cfg.reject_limit then .chunk
          else .reject }
    needs_processing := decide (cfg.direct_limit < estimate_tokens text) }

/-! ### Prompt templates, embedded verbatim from `src/lang_template.py` -/

/-- `JobSummaryTemplate.get_summary_template` template string (source lines 17-41). -/
def get_summary_template : String :=
  "다음 채용 공고 내용을 핵심 정보만 정리하여 한글로 요약해 주세요:\n\n{job_content}\n\n아래 형식으로 정리해주세요:\n\n## 공고명: [공고명]\n### 회사명: [회사명]\n\n**마감기한**\n- [마감기한]\n\n### A. 회사소개 (비전, 연혁) & 직무 소개 (주요 업무):\n- [회사 소개 및 주요 업무 내용]\n\n### B. 자격요건 (필수조건) & 우대사항 (선택 요건):\n**필수조건:**\n- [필수 자격요건들]\n\n**우대사항:**\n- [우대사항들]\n\n### C. 혜택 및 복지 & 기타사항:\n- [혜택, 복지, 기타 정보들]\n"

/-- `JobSummaryTemplate.get_map_template` template string (source lines 47-52). -/
def get_map_template : String :=
  "다음 채용공고 텍스트의 핵심 내용을 간단히 요약해주세요.\n영어 내용이 있다면 한국어로 번역해서 요약해주세요:\n\n{text}\n\n핵심 요약:"

/-- `JobSummaryTemplate.get_reduce_template` template string (source lines 58-83). -/
def get_reduce_template : String :=
  "다음은 채용공고의 여러 부분을 요약한 내용들입니다.\n이를 종합하여 완전한 채용공고 요약을 만들어주세요:\n\n{text}\n\n아래 형식으로 최종 정리해주세요:\n\n## 공고명: [공고명]\n### 회사명: [회사명]\n\n**마감기한**\n- [마감기한]\n\n### A. 회사소개 (비전, 연혁) & 직무 소개 (주요 업무):\n- [회사 소개 및 주요 업무 내용]\n\n### B. 자격요건 (필수조건) & 우대사항 (선택 요건):\n**필수조건:**\n- [필수 자격요건들]\n\n**우대사항:**\n- [우대사항들]\n\n### C. 혜택 및 복지 & 기타사항:\n- [혜택, 복지, 기타 정보들]\n"

/-- The fixed heading block shared by the direct summary template and the
reduce template (everything from the first heading line on). -/
def headingBlock : String :=
  "## 공고명: [공고명]\n### 회사명: [회사명]\n\n**마감기한**\n- [마감기한]\n\n### A. 회사소개 (비전, 연혁) & 직무 소개 (주요 업무):\n- [회사 소개 및 주요 업무 내용]\n\n### B. 자격요건 (필수조건) & 우대사항 (선택 요건):\n**필수조건:**\n- [필수 자격요건들]\n\n**우대사항:**\n- [우대사항들]\n\n### C. 혜택 및 복지 & 기타사항:\n- [혜택, 복지, 기타 정보들]\n"

/-- Instruction text preceding the heading block in the summary template. -/
def summaryTemplateIntro : String :=
  "다음 채용 공고 내용을 핵심 정보만 정리하여 한글로 요약해 주세요:\n\n{job_content}\n\n아래 형식으로 정리해주세요:\n\n"

/-- Instruction text preceding the heading block in the reduce template. -/
def reduceTemplateIntro : String :=
  "다음은 채용공고의 여러 부분을 요약한 내용들입니다.\n이를 종합하여 완전한 채용공고 요약을 만들어주세요:\n\n{text}\n\n아래 형식으로 최종 정리해주세요:\n\n"

/-- The six canonical headings of the output schema. -/
def canonicalHeadings : List String :=
  ["## 공고명:", "### 회사명:", "**마감기한**",
   "### A. 회사소개 (비전, 연혁) & 직무 소개 (주요 업무):",
   "### B. 자격요건 (필수조건) & 우대사항 (선택 요건):",
   "### C. 혜택 및 복지 & 기타사항:"]

/-- Does `pat` occur at the start of `l`? (structural, kernel-evaluable) -/
def beginsWith : List Char → List Char → Bool
  | [], _ => true
  | _ :: _, [] => false
  | p :: ps, c :: cs => p = c && beginsWith ps cs

/-- Does `pat` occur as a contiguous segment of `l`? -/
def containsSeg (pat : List Char) : List Char → Bool
  | [] => beginsWith pat []
  | c :: cs => beginsWith pat (c :: cs) || containsSeg pat cs

/-- Does the string `s` contain the string `pat` as a contiguous substring? -/
def strContains (s pat : String) : Bool :=
  containsSeg pat.data s.data

/-! ### Content normalizer, modelled from the spec (`ContentPreprocessor` of
the missing `token_counter.py`): collapse repeated whitespace/newlines to
single-spaced prose, preserve paragraph boundaries (a newline survives as a
newline), trim, and fail with a ValidationError on empty or whitespace-only
input. -/

def isWsChar (c : Char) : Bool :=
  c = ' ' || c = '\t' || c = '\n' || c = '\r'

/-- Canonical representative of a single whitespace character. -/
def normWs (c : Char) : Char :=
  if c = '\n' then '\n' else ' '

/-- Canonical representative of two adjacent whitespace representatives:
a paragraph boundary wins over a plain space. -/
def mergeWs (a b : Char) : Char :=
  if a = '\n' || b = '\n' then '\n' else ' '

/-- Collapse every maximal whitespace run to one character: a newline when
the run contains a newline, otherwise a space. -/
def collapseWs : List Char → List Char
  | [] => []
  | c :: cs =>
    if isWsChar c then
      match collapseWs cs with
      | [] => [normWs c]
      | d :: ds => if isWsChar d then mergeWs (normWs c) d :: ds else normWs c :: d :: ds
    else c :: collapseWs cs

/-- Drop leading whitespace. -/
def ltrim (l : List Char) : List Char :=
  l.dropWhile isWsChar

/-- Drop trailing whitespace. -/
def rtrim : List Char → List Char
  | [] => []
  | c :: cs =>
    match rtrim cs with
    | [] => if isWsChar c then [] else [c]
    | d :: ds => c :: d :: ds

/-- Whitespace normalization pass over a character list: collapse runs,
trim both ends. -/
def cleanChars (l : List Char) : List Char :=
  rtrim (ltrim (collapseWs l))

/-- Line splitting at newline characters: the first component is the line
currently being built, the second the completed lines after it. -/
def splitNlAux : List Char → List Char × List (List Char)
  | [] => ([], [])
  | c :: cs =>
    match splitNlAux cs with
    | (curr, done) => if c = '\n' then ([], curr :: done) else (c :: curr, done)

/-- The lines of a text, split at newlines (always a nonempty list). -/
def splitNl (l : List Char) : List (List Char) :=
  (splitNlAux l).1 :: (splitNlAux l).2

/-- Rejoin lines with single newlines between them. -/
def joinNl : List (List Char) → List Char
  | [] => []
  | [p] => p
  | p :: q :: rest => p ++ '\n' :: joinNl (q :: rest)

/-- Modelled from the spec: a boilerplate artifact common to scraped pages
is a short line (at most 30 characters) that occurs repeatedly (at least
twice) in the text, as navigation/footer lines do. -/
def isBoilerLine (ls : List (List Char)) (ln : List Char) : Bool :=
  decide (ln.length ≤ 30) && decide (2 ≤ ls.count ln)

/-- Remove every repeated short navigation/footer line. -/
def removeBoiler (ls : List (List Char)) : List (List Char) :=
  ls.filter fun ln => !(isBoilerLine ls ln)

/-- Boilerplate-removal pass over a whitespace-normalized text. -/
def stripBoiler (l : List Char) : List Char :=
  joinNl (removeBoiler (splitNl l))

/-- Full normalization, modelled from the spec (§4.2): collapse repeated
whitespace/newlines to single-spaced prose preserving paragraph boundaries,
trim, then remove the repeated short navigation/footer lines. -/
def normalizeContent (l : List Char) : List Char :=
  stripBoiler (cleanChars l)

/-- Exception taxonomy of the pipeline, modelled from the spec (§7) together
with the generic wrapping exception raised by `JobSummaryChain.run_summary`. -/
inductive PyExc where
  | validationError (msg : String)
  | contentTooLargeError (msg : String)
  | modelInvocationError (idx : Nat) (msg : String)
  | timeoutError (msg : String)
  | genericError (msg : String)
  deriving DecidableEq, Repr

/-- The message carried by an exception (the Python `str(e)`). -/
def PyExc.message : PyExc → String
  | .validationError m => m
  | .contentTooLargeError m => m
  | .modelInvocationError _ m => m
  | .timeoutError m => m
  | .genericError m => m

/-- Modelled from the spec: `ContentPreprocessor.clean_web_content` of the
missing `token_counter.py`. -/
def clean_web_content (raw : String) : Except PyExc String :=
  if (normalizeContent raw.data).isEmpty then
    .error (.validationError "빈 콘텐츠입니다")
  else
    .ok (String.mk (normalizeContent raw.data))

/-! ### Normalization invariants used by the idempotence proof -/

/-- Every whitespace character of the list is already a canonical
representative (a space or a newline). -/
def allWsNorm (l : List Char) : Bool :=
  l.all fun c => !(isWsChar c) || c = ' ' || c = '\n'

/-- Every whitespace character is a canonical representative. -/
def wsNormChar (c : Char) : Bool :=
  !(isWsChar c) || c = ' ' || c = '\n'

/-- No two adjacent whitespace characters. -/
def noWsRun : List Char → Bool
  | a :: b :: rest => !(isWsChar a && isWsChar b) && noWsRun (b :: rest)
  | _ => true

theorem noWsRun_tail {a : Char} {l : List Char} (h : noWsRun (a :: l) = true) :
    noWsRun l = true := by
  cases l with
  | nil => rfl
  | cons b rest =>
    simp only [noWsRun, Bool.and_eq_true] at h
    exact h.2

theorem noWsRun_cons_of_not_ws {a : Char} {l : List Char}
    (ha : isWsChar a = false) (h : noWsRun l = true) : noWsRun (a :: l) = true := by
  cases l with
  | nil => rfl
  | cons b rest => simp [noWsRun, ha, h]

theorem collapseWs_cons_not_ws {c : Char} (h : isWsChar c = false) (cs : List Char) :
    collapseWs (c :: cs) = c :: collapseWs cs := by
  simp [collapseWs, h]

theorem collapseWs_cons_ws {c : Char} (h : isWsChar c = true) (cs : List Char) :
    collapseWs (c :: cs) =
      match collapseWs cs with
      | [] => [normWs c]
      | d :: ds => if isWsChar d then mergeWs (normWs c) d :: ds else normWs c :: d :: ds := by
  simp [collapseWs, h]

theorem wsNormChar_normWs (c : Char) : wsNormChar (normWs c) = true := by
  unfold normWs
  split
  · decide
  · decide

theorem wsNormChar_mergeWs (a b : Char) : wsNormChar (mergeWs a b) = true := by
  unfold mergeWs
  split
  · decide
  · decide

theorem allWsNorm_collapseWs (l : List Char) : allWsNorm (collapseWs l) = true := by
  induction l with
  | nil => rfl
  | cons c cs ih =>
    cases hws : isWsChar c with
    | false =>
      rw [collapseWs_cons_not_ws hws]
      simp only [allWsNorm, List.all_cons, Bool.and_eq_true] at ih ⊢
      exact ⟨by simp [wsNormChar, hws], ih⟩
    | true =>
      rw [collapseWs_cons_ws hws]
      cases hr : collapseWs cs with
      | nil =>
        simp only [allWsNorm, List.all_cons, List.all_nil, Bool.and_true]
        exact wsNormChar_normWs c
      | cons d ds =>
        rw [hr] at ih
        simp only [allWsNorm, List.all_cons, Bool.and_eq_true] at ih
        cases hd : isWsChar d with
        | true =>
          simp only [hd, if_true]
          simp only [allWsNorm, List.all_cons, Bool.and_eq_true]
          exact ⟨wsNormChar_mergeWs _ _, ih.2⟩
        | false =>
          simp only [hd, Bool.false_eq_true, if_false]
          simp only [allWsNorm, List.all_cons, Bool.and_eq_true]
          exact ⟨wsNormChar_normWs _, ih⟩

theorem noWsRun_collapseWs (l : List Char) : noWsRun (collapseWs l) = true := by
  induction l with
  | nil => rfl
  | cons c cs ih =>
    cases hws : isWsChar c with
    | false =>
      rw [collapseWs_cons_not_ws hws]
      exact noWsRun_cons_of_not_ws hws ih
    | true =>
      rw [collapseWs_cons_ws hws]
      cases hr : collapseWs cs with
      | nil => rfl
      | cons d ds =>
        rw [hr] at ih
        cases hd : isWsChar d with
        | true =>
          simp only [hd, if_true]
          cases ds with
          | nil => rfl
          | cons e es =>
            simp only [noWsRun, Bool.and_eq_true] at ih ⊢
            have he : isWsChar e = false := by
              cases hee : isWsChar e
              · rfl
              · rw [hd, hee] at ih
                simp at ih
            exact ⟨by simp [he], ih.2⟩
        | false =>
          simp only [hd, Bool.false_eq_true, if_false]
          simp only [noWsRun, Bool.and_eq_true]
          exact ⟨by simp [hd], ih⟩

theorem normWs_of_wsNorm {c : Char} (h1 : wsNormChar c = true) (h2 : isWsChar c = true) :
    normWs c = c := by
  unfold wsNormChar at h1
  rw [h2] at h1
  simp only [Bool.not_true, Bool.false_or, Bool.or_eq_true, decide_eq_true_eq] at h1
  rcases h1 with h | h <;> simp [normWs, h]

theorem collapseWs_fix {l : List Char} (h1 : allWsNorm l = true) (h2 : noWsRun l = true) :
    collapseWs l = l := by
  induction l with
  | nil => rfl
  | cons c cs ih =>
    simp only [allWsNorm, List.all_cons, Bool.and_eq_true] at h1
    have hrec : collapseWs cs = cs := ih h1.2 (noWsRun_tail h2)
    cases hws : isWsChar c with
    | false => rw [collapseWs_cons_not_ws hws, hrec]
    | true =>
      have hcn : normWs c = c := normWs_of_wsNorm h1.1 hws
      rw [collapseWs_cons_ws hws, hrec]
      cases cs with
      | nil => simp [hcn]
      | cons d ds =>
        have hd : isWsChar d = false := by
          simp only [noWsRun, Bool.and_eq_true] at h2
          cases hdd : isWsChar d
          · rfl
          · rw [hws, hdd] at h2
            simp at h2
        simp [hd, hcn]

theorem ltrim_head_not_ws (l : List Char) :
    ∀ c, (ltrim l).head? = some c → isWsChar c = false := by
  induction l with
  | nil => intro c h; simp [ltrim] at h
  | cons a as ih =>
    intro c h
    cases hws : isWsChar a with
    | false =>
      simp only [ltrim, List.dropWhile_cons, hws, Bool.false_eq_true, if_false,
        List.head?_cons, Option.some.injEq] at h
      rw [← h]
      exact hws
    | true =>
      simp only [ltrim, List.dropWhile_cons, hws, if_true] at h
      exact ih c h

theorem ltrim_of_head_not_ws {l : List Char}
    (h : ∀ c, l.head? = some c → isWsChar c = false) : ltrim l = l := by
  cases l with
  | nil => rfl
  | cons a as =>
    have := h a rfl
    simp [ltrim, List.dropWhile_cons, this]

theorem rtrim_head? (l : List Char) :
    rtrim l = [] ∨ (rtrim l).head? = l.head? := by
  cases l with
  | nil => left; rfl
  | cons c cs =>
    simp only [rtrim]
    cases rtrim cs with
    | nil =>
      cases hws : isWsChar c with
      | true => left; simp [hws]
      | false => right; simp [hws]
    | cons d ds => right; rfl

theorem rtrim_idem (l : List Char) : rtrim (rtrim l) = rtrim l := by
  induction l with
  | nil => rfl
  | cons c cs ih =>
    cases h : rtrim cs with
    | nil =>
      cases hws : isWsChar c with
      | true => simp [rtrim, h, hws]
      | false => simp [rtrim, h, hws]
    | cons d ds =>
      rw [h] at ih
      have hout : rtrim (c :: cs) = c :: d :: ds := by simp [rtrim, h]
      rw [hout]
      simp only [rtrim] at ih ⊢
      rw [ih]

theorem allWsNorm_ltrim {l : List Char} (h : allWsNorm l = true) :
    allWsNorm (ltrim l) = true := by
  induction l with
  | nil => rfl
  | cons a as ih =>
    simp only [allWsNorm, List.all_cons, Bool.and_eq_true] at h
    cases hws : isWsChar a with
    | true =>
      simp only [ltrim, List.dropWhile_cons, hws, if_true]
      exact ih h.2
    | false =>
      simp only [ltrim, List.dropWhile_cons, hws, Bool.false_eq_true, if_false]
      simp only [allWsNorm, List.all_cons, Bool.and_eq_true]
      exact ⟨h.1, h.2⟩

theorem allWsNorm_rtrim {l : List Char} (h : allWsNorm l = true) :
    allWsNorm (rtrim l) = true := by
  induction l with
  | nil => rfl
  | cons c cs ih =>
    simp only [allWsNorm, List.all_cons, Bool.and_eq_true] at h
    have ih' := ih h.2
    simp only [rtrim]
    cases hr : rtrim cs with
    | nil =>
      cases hws : isWsChar c with
      | true => simp only [hws, if_true]; rfl
      | false =>
        simp only [hws, Bool.false_eq_true, if_false]
        simp [allWsNorm, h.1]
    | cons d ds =>
      rw [hr] at ih'
      simp only [allWsNorm, List.all_cons, Bool.and_eq_true] at ih' ⊢
      exact ⟨h.1, ih'⟩

theorem noWsRun_ltrim {l : List Char} (h : noWsRun l = true) :
    noWsRun (ltrim l) = true := by
  induction l with
  | nil => rfl
  | cons a as ih =>
    cases hws : isWsChar a with
    | true =>
      simp only [ltrim, List.dropWhile_cons, hws, if_true]
      exact ih (noWsRun_tail h)
    | false =>
      simp only [ltrim, List.dropWhile_cons, hws, Bool.false_eq_true, if_false]
      exact h

theorem noWsRun_rtrim {l : List Char} (h : noWsRun l = true) :
    noWsRun (rtrim l) = true := by
  induction l with
  | nil => rfl
  | cons c cs ih =>
    have ih' := ih (noWsRun_tail h)
    simp only [rtrim]
    cases hr : rtrim cs with
    | nil =>
      cases hws : isWsChar c with
      | true => simp only [hws, if_true]; rfl
      | false => simp only [hws, Bool.false_eq_true, if_false]; rfl
    | cons d ds =>
      rw [hr] at ih'
      rcases rtrim_head? cs with hnil | hhd
      · rw [hnil] at hr; cases hr
      · rw [hr] at hhd
        cases cs with
        | nil => simp [rtrim] at hr
        | cons e es =>
          simp only [List.head?_cons, Option.some.injEq] at hhd
          subst hhd
          simp only [noWsRun, Bool.and_eq_true] at h ⊢
          exact ⟨h.1, ih'⟩

theorem cleanChars_allWsNorm (l : List Char) : allWsNorm (cleanChars l) = true :=
  allWsNorm_rtrim (allWsNorm_ltrim (allWsNorm_collapseWs l))

theorem cleanChars_noWsRun (l : List Char) : noWsRun (cleanChars l) = true :=
  noWsRun_rtrim (noWsRun_ltrim (noWsRun_collapseWs l))

theorem cleanChars_head_not_ws (l : List Char) :
    ∀ c, (cleanChars l).head? = some c → isWsChar c = false := by
  intro c hc
  unfold cleanChars at hc
  rcases rtrim_head? (ltrim (collapseWs l)) with hnil | hhd
  · rw [hnil] at hc; cases hc
  · rw [hhd] at hc
    exact ltrim_head_not_ws _ c hc

theorem cleanChars_idem (l : List Char) : cleanChars (cleanChars l) = cleanChars l := by
  conv_lhs => rw [cleanChars]
  rw [collapseWs_fix (cleanChars_allWsNorm l) (cleanChars_noWsRun l)]
  rw [ltrim_of_head_not_ws (cleanChars_head_not_ws l)]
  show rtrim (rtrim (ltrim (collapseWs l))) = cleanChars l
  rw [rtrim_idem]
  rfl

/-! ### Line-level invariants for the boilerplate-removal pass -/

/-- A well-formed line of whitespace-normalized text: nonempty, free of
newlines, canonical single whitespace, non-whitespace at both ends. -/
structure GoodLine (p : List Char) : Prop where
  ne : p ≠ []
  noNl : '\n' ∉ p
  norm : allWsNorm p = true
  wsRun : noWsRun p = true
  headOk : ∀ c, p.head? = some c → isWsChar c = false
  lastOk : ∀ c, p.getLast? = some c → isWsChar c = false

theorem splitNlAux_no_nl {l : List Char} (h : '\n' ∉ l) : splitNlAux l = (l, []) := by
  induction l with
  | nil => rfl
  | cons c cs ih =>
    simp only [List.mem_cons, not_or] at h
    simp only [splitNlAux, ih h.2]
    rw [if_neg fun hc => h.1 hc.symm]

theorem splitNl_no_nl {l : List Char} (h : '\n' ∉ l) : splitNl l = [l] := by
  unfold splitNl
  rw [splitNlAux_no_nl h]

theorem splitNlAux_parts (l : List Char) :
    '\n' ∉ (splitNlAux l).1 ∧ ∀ p ∈ (splitNlAux l).2, '\n' ∉ p := by
  induction l with
  | nil => exact ⟨List.not_mem_nil '\n', fun p hp => absurd hp (List.not_mem_nil p)⟩
  | cons c cs ih =>
    by_cases hc : c = '\n'
    · have h1 : splitNlAux (c :: cs) = ([], (splitNlAux cs).1 :: (splitNlAux cs).2) := by
        simp only [splitNlAux]
        cases hx : splitNlAux cs with
        | mk curr done => rw [if_pos hc]
      rw [h1]
      refine ⟨by simp, ?_⟩
      intro p hp
      rcases List.mem_cons.mp hp with h | h
      · rw [h]; exact ih.1
      · exact ih.2 p h
    · have h1 : splitNlAux (c :: cs) = (c :: (splitNlAux cs).1, (splitNlAux cs).2) := by
        simp only [splitNlAux]
        cases hx : splitNlAux cs with
        | mk curr done => rw [if_neg hc]
      rw [h1]
      refine ⟨?_, ih.2⟩
      intro hmem
      rcases List.mem_cons.mp hmem with h | h
      · exact hc h.symm
      · exact ih.1 h

theorem splitNl_parts_no_nl {l : List Char} : ∀ p ∈ splitNl l, '\n' ∉ p := by
  intro p hp
  unfold splitNl at hp
  rcases List.mem_cons.mp hp with h | h
  · rw [h]; exact (splitNlAux_parts l).1
  · exact (splitNlAux_parts l).2 p h

theorem splitNlAux_append_nl {p : List Char} (rest : List Char) (h : '\n' ∉ p) :
    splitNlAux (p ++ '\n' :: rest) = (p, splitNl rest) := by
  induction p with
  | nil =>
    show splitNlAux ('\n' :: rest) = ([], (splitNlAux rest).1 :: (splitNlAux rest).2)
    simp only [splitNlAux]
    cases hx : splitNlAux rest with
    | mk curr done => simp
  | cons a p' ih =>
    simp only [List.mem_cons, not_or] at h
    show splitNlAux (a :: (p' ++ '\n' :: rest)) = (a :: p', splitNl rest)
    simp only [splitNlAux, ih h.2]
    rw [if_neg fun hc => h.1 hc.symm]

theorem splitNl_append_nl {p : List Char} (rest : List Char) (h : '\n' ∉ p) :
    splitNl (p ++ '\n' :: rest) = p :: splitNl rest := by
  unfold splitNl
  rw [splitNlAux_append_nl rest h]
  rfl

theorem splitNl_joinNl : ∀ ps : List (List Char), ps ≠ [] → (∀ p ∈ ps, '\n' ∉ p) →
    splitNl (joinNl ps) = ps := by
  intro ps
  induction ps with
  | nil => intro h; exact absurd rfl h
  | cons p ps' ih =>
    intro _ hno
    cases ps' with
    | nil =>
      show splitNl (joinNl [p]) = [p]
      have hj : joinNl [p] = p := rfl
      rw [hj, splitNl_no_nl (hno p (List.mem_cons_self p []))]
    | cons q rest =>
      have hj : joinNl (p :: q :: rest) = p ++ '\n' :: joinNl (q :: rest) := rfl
      rw [hj, splitNl_append_nl _ (hno p (List.mem_cons_self p (q :: rest)))]
      rw [ih (by simp) fun x hx => hno x (List.mem_cons_of_mem p hx)]

theorem first_nl_decomp {z : List Char} (h : '\n' ∈ z) :
    ∃ p rest, z = p ++ '\n' :: rest ∧ '\n' ∉ p := by
  induction z with
  | nil => cases h
  | cons c cs ih =>
    by_cases hc : c = '\n'
    · exact ⟨[], cs, by rw [hc]; rfl, by simp⟩
    · have hmem : '\n' ∈ cs := by
        rcases List.mem_cons.mp h with h1 | h1
        · exact absurd h1.symm hc
        · exact h1
      obtain ⟨p, rest, heq, hnp⟩ := ih hmem
      refine ⟨c :: p, rest, by rw [heq]; rfl, ?_⟩
      intro hx
      rcases List.mem_cons.mp hx with h2 | h2
      · exact hc h2.symm
      · exact hnp h2

theorem noWsRun_append_left : ∀ {a b : List Char}, noWsRun (a ++ b) = true →
    noWsRun a = true := by
  intro a
  induction a with
  | nil => intro b _; rfl
  | cons x a' ih =>
    intro b h
    cases a' with
    | nil => rfl
    | cons y a'' =>
      simp only [List.cons_append, noWsRun, Bool.and_eq_true] at h ⊢
      exact ⟨h.1, ih h.2⟩

theorem noWsRun_append_right : ∀ {a b : List Char}, noWsRun (a ++ b) = true →
    noWsRun b = true := by
  intro a
  induction a with
  | nil => intro b h; exact h
  | cons x a' ih => intro b h; exact ih (noWsRun_tail h)

theorem noWsRun_last_mem {rest : List Char} : ∀ {p : List Char} {c : Char},
    noWsRun (p ++ '\n' :: rest) = true → p.getLast? = some c → isWsChar c = false := by
  intro p
  induction p with
  | nil => intro c _ hl; cases hl
  | cons x p' ih =>
    intro c h hl
    cases p' with
    | nil =>
      have hxc : x = c := by simpa using hl
      subst hxc
      have h1 : (!(isWsChar x && isWsChar '\n')) = true := by
        simp only [List.cons_append, List.nil_append, noWsRun, Bool.and_eq_true] at h
        exact h.1
      have hnl : isWsChar '\n' = true := by decide
      rw [hnl, Bool.and_true] at h1
      simpa using h1
    | cons y p'' =>
      rw [List.getLast?_cons_cons] at hl
      exact ih (noWsRun_tail h) hl

theorem rtrim_eq_self {l : List Char}
    (h : ∀ c, l.getLast? = some c → isWsChar c = false) : rtrim l = l := by
  induction l with
  | nil => rfl
  | cons x cs ih =>
    cases cs with
    | nil =>
      have hx := h x (by simp)
      simp [rtrim, hx]
    | cons y cs' =>
      have hrec : rtrim (y :: cs') = y :: cs' :=
        ih fun c hc => h c (by rw [List.getLast?_cons_cons]; exact hc)
      have hstep : rtrim (x :: y :: cs') =
          match rtrim (y :: cs') with
          | [] => if isWsChar x = true then [] else [x]
          | d :: ds => x :: d :: ds := rfl
      rw [hstep, hrec]

theorem rtrim_last_not_ws : ∀ (l : List Char) (c : Char),
    (rtrim l).getLast? = some c → isWsChar c = false := by
  intro l
  induction l with
  | nil => intro c hc; cases hc
  | cons x cs ih =>
    intro c hc
    simp only [rtrim] at hc
    cases hr : rtrim cs with
    | nil =>
      rw [hr] at hc
      cases hx : isWsChar x
      · simp only [hx, Bool.false_eq_true, if_false] at hc
        have hxc : x = c := by simpa using hc
        rw [← hxc]
        exact hx
      · simp only [hx, if_true] at hc
        cases hc
    | cons d ds =>
      rw [hr] at hc
      rw [List.getLast?_cons_cons] at hc
      exact ih c (by rw [hr]; exact hc)

theorem cleanChars_last_not_ws (l : List Char) :
    ∀ c, (cleanChars l).getLast? = some c → isWsChar c = false :=
  fun c hc => rtrim_last_not_ws (ltrim (collapseWs l)) c hc

theorem isWsChar_normWs (c : Char) : isWsChar (normWs c) = true := by
  unfold normWs
  split
  · decide
  · decide

theorem isWsChar_mergeWs (a b : Char) : isWsChar (mergeWs a b) = true := by
  unfold mergeWs
  split
  · decide
  · decide

theorem collapseWs_all_ws {l : List Char} (h : l.all isWsChar = true) :
    collapseWs l = [] ∨ ∃ w, collapseWs l = [w] ∧ isWsChar w = true := by
  induction l with
  | nil => left; rfl
  | cons c cs ih =>
    simp only [List.all_cons, Bool.and_eq_true] at h
    rcases ih h.2 with hnil | ⟨w, hw, hws⟩
    · right
      refine ⟨normWs c, ?_, isWsChar_normWs c⟩
      rw [collapseWs_cons_ws h.1, hnil]
    · right
      refine ⟨mergeWs (normWs c) w, ?_, isWsChar_mergeWs _ _⟩
      rw [collapseWs_cons_ws h.1, hw]
      simp [hws]

theorem cleanChars_of_all_ws {l : List Char} (h : l.all isWsChar = true) :
    cleanChars l = [] := by
  unfold cleanChars
  rcases collapseWs_all_ws h with hnil | ⟨w, hw, hws⟩
  · rw [hnil]
    rfl
  · rw [hw]
    show rtrim (List.dropWhile isWsChar [w]) = []
    simp [List.dropWhile_cons, hws, rtrim]

theorem splitNl_good : ∀ (n : Nat) (z : List Char), z.length ≤ n → z ≠ [] →
    allWsNorm z = true → noWsRun z = true →
    (∀ c, z.head? = some c → isWsChar c = false) →
    (∀ c, z.getLast? = some c → isWsChar c = false) →
    ∀ p ∈ splitNl z, GoodLine p := by
  intro n
  induction n with
  | zero =>
    intro z hlen hne _ _ _ _ p _
    exact absurd (List.eq_nil_of_length_eq_zero (by omega)) hne
  | succ n ih =>
    intro z hlen hne hnorm hrun hhead hlast p hp
    by_cases hnl : '\n' ∈ z
    · obtain ⟨p0, rest, hz, hp0nl⟩ := first_nl_decomp hnl
      subst hz
      rw [splitNl_append_nl rest hp0nl] at hp
      have hp0ne : p0 ≠ [] := by
        intro h0
        subst h0
        have hh := hhead '\n' rfl
        exact absurd hh (by decide)
      have hrestne : rest ≠ [] := by
        intro h0
        subst h0
        have hl := hlast '\n' (by rw [List.getLast?_concat])
        exact absurd hl (by decide)
      rcases List.mem_cons.mp hp with hpp | hpr
      · subst hpp
        refine ⟨hp0ne, hp0nl, ?_, noWsRun_append_left hrun, ?_, ?_⟩
        · have hx := hnorm
          simp only [allWsNorm, List.all_append, Bool.and_eq_true] at hx
          exact hx.1
        · intro c hc
          apply hhead c
          rw [List.head?_append, hc]
          rfl
        · intro c hc
          exact noWsRun_last_mem hrun hc
      · have hlen2 : rest.length ≤ n := by
          rw [List.length_append, List.length_cons] at hlen
          omega
        have hnorm2 : allWsNorm rest = true := by
          have hx := hnorm
          simp only [allWsNorm, List.all_append, List.all_cons, Bool.and_eq_true] at hx
          exact hx.2.2
        have hrun2 : noWsRun rest = true :=
          noWsRun_tail (noWsRun_append_right hrun)
        have hhead2 : ∀ c, rest.head? = some c → isWsChar c = false := by
          intro c hc
          cases rest with
          | nil => cases hc
          | cons r rest' =>
            have hrc : r = c := by simpa using hc
            subst hrc
            have hx : noWsRun ('\n' :: r :: rest') = true := noWsRun_append_right hrun
            simp only [noWsRun, Bool.and_eq_true] at hx
            have h1 := hx.1
            have hnlt : isWsChar '\n' = true := by decide
            rw [hnlt, Bool.true_and] at h1
            simpa using h1
        have hlast2 : ∀ c, rest.getLast? = some c → isWsChar c = false := by
          intro c hc
          apply hlast c
          cases rest with
          | nil => cases hc
          | cons r rest' =>
            rw [List.getLast?_append, List.getLast?_cons_cons, hc]
            rfl
        exact ih rest hlen2 hrestne hnorm2 hrun2 hhead2 hlast2 p hpr
    · rw [splitNl_no_nl hnl] at hp
      have hpz : p = z := by simpa using hp
      subst hpz
      exact ⟨hne, hnl, hnorm, hrun, hhead, hlast⟩

theorem joinNl_ne_nil (q : List Char) (rest : List (List Char)) (hq : q ≠ []) :
    joinNl (q :: rest) ≠ [] := by
  cases rest with
  | nil => exact hq
  | cons r rest' =>
    show q ++ '\n' :: joinNl (r :: rest') ≠ []
    simp

theorem joinNl_head? (q : List Char) (rest : List (List Char)) (hq : q ≠ []) :
    (joinNl (q :: rest)).head? = q.head? := by
  cases rest with
  | nil => rfl
  | cons r rest' =>
    show (q ++ '\n' :: joinNl (r :: rest')).head? = q.head?
    rw [List.head?_append]
    cases q with
    | nil => exact absurd rfl hq
    | cons a q' => rfl

theorem joinNl_norm : ∀ ps : List (List Char), (∀ p ∈ ps, allWsNorm p = true) →
    allWsNorm (joinNl ps) = true := by
  intro ps
  induction ps with
  | nil => intro _; rfl
  | cons p ps' ih =>
    intro h
    cases ps' with
    | nil => exact h p (List.mem_cons_self p [])
    | cons q rest =>
      show allWsNorm (p ++ '\n' :: joinNl (q :: rest)) = true
      have h1 : allWsNorm p = true := h p (List.mem_cons_self p (q :: rest))
      have h2 : allWsNorm (joinNl (q :: rest)) = true :=
        ih fun x hx => h x (List.mem_cons_of_mem p hx)
      simp only [allWsNorm, List.all_append, List.all_cons, Bool.and_eq_true] at h1 h2 ⊢
      exact ⟨h1, by decide, h2⟩

theorem noWsRun_sep_append : ∀ (a b : List Char), noWsRun a = true →
    (∀ c, a.getLast? = some c → isWsChar c = false) →
    (∀ c, b.head? = some c → isWsChar c = false) →
    noWsRun b = true →
    noWsRun (a ++ '\n' :: b) = true := by
  intro a
  induction a with
  | nil =>
    intro b _ _ hbh hb
    show noWsRun ('\n' :: b) = true
    cases b with
    | nil => rfl
    | cons r b' =>
      simp only [noWsRun, Bool.and_eq_true]
      refine ⟨?_, hb⟩
      have hr := hbh r rfl
      simp [hr]
  | cons x a' ih =>
    intro b ha hal hbh hb
    cases a' with
    | nil =>
      show noWsRun (x :: '\n' :: b) = true
      simp only [noWsRun, Bool.and_eq_true]
      constructor
      · have hx := hal x (by simp)
        simp [hx]
      · cases b with
        | nil => rfl
        | cons r b' =>
          simp only [noWsRun, Bool.and_eq_true]
          exact ⟨by simp [hbh r rfl], hb⟩
    | cons y a'' =>
      show noWsRun (x :: ((y :: a'') ++ '\n' :: b)) = true
      have hrec := ih b (noWsRun_tail ha)
        (fun c hc => hal c (by rw [List.getLast?_cons_cons]; exact hc)) hbh hb
      have hpair : (!(isWsChar x && isWsChar y)) = true := by
        simp only [noWsRun, Bool.and_eq_true] at ha
        exact ha.1
      simp only [List.cons_append, noWsRun, Bool.and_eq_true]
      exact ⟨hpair, hrec⟩

theorem joinNl_run : ∀ ps : List (List Char), (∀ p ∈ ps, GoodLine p) →
    noWsRun (joinNl ps) = true := by
  intro ps
  induction ps with
  | nil => intro _; rfl
  | cons p ps' ih =>
    intro h
    cases ps' with
    | nil => exact (h p (List.mem_cons_self p [])).wsRun
    | cons q rest =>
      show noWsRun (p ++ '\n' :: joinNl (q :: rest)) = true
      have hp := h p (List.mem_cons_self p (q :: rest))
      have hq := h q (List.mem_cons_of_mem p (List.mem_cons_self q rest))
      apply noWsRun_sep_append
      · exact hp.wsRun
      · exact hp.lastOk
      · intro c hc
        rw [joinNl_head? q rest hq.ne] at hc
        exact hq.headOk c hc
      · exact ih fun x hx => h x (List.mem_cons_of_mem p hx)

theorem joinNl_lastOk : ∀ ps : List (List Char), (∀ p ∈ ps, GoodLine p) →
    ∀ c, (joinNl ps).getLast? = some c → isWsChar c = false := by
  intro ps
  induction ps with
  | nil => intro _ c hc; cases hc
  | cons p ps' ih =>
    intro h c hc
    cases ps' with
    | nil => exact (h p (List.mem_cons_self p [])).lastOk c hc
    | cons q rest =>
      have hj : joinNl (p :: q :: rest) = p ++ '\n' :: joinNl (q :: rest) := rfl
      rw [hj, List.getLast?_append] at hc
      have hqne : q ≠ [] := (h q (List.mem_cons_of_mem p (List.mem_cons_self q rest))).ne
      have hjne : joinNl (q :: rest) ≠ [] := joinNl_ne_nil q rest hqne
      cases hj2 : joinNl (q :: rest) with
      | nil => exact absurd hj2 hjne
      | cons jh jt =>
        rw [hj2, List.getLast?_cons_cons] at hc
        cases hx : (jh :: jt).getLast? with
        | none =>
          rw [List.getLast?_eq_none_iff] at hx
          cases hx
        | some w =>
          rw [hx] at hc
          have hwc : w = c := by simpa using hc
          subst hwc
          apply ih (fun x hx2 => h x (List.mem_cons_of_mem p hx2)) w
          rw [hj2]
          exact hx

theorem removeBoiler_stable (ls : List (List Char)) :
    removeBoiler (removeBoiler ls) = removeBoiler ls := by
  have key : ∀ ln ∈ removeBoiler ls, isBoilerLine (removeBoiler ls) ln = false := by
    intro ln hln
    have hmem := List.mem_filter.mp hln
    have hcount : List.count ln (removeBoiler ls) ≤ List.count ln ls :=
      List.Sublist.count_le (List.filter_sublist ls) ln
    by_cases hlen : ln.length ≤ 30
    · have h2 : List.count ln ls ≤ 1 := by
        by_contra hgt
        have hb : isBoilerLine ls ln = true := by
          unfold isBoilerLine
          rw [decide_eq_true hlen, decide_eq_true (by omega : 2 ≤ List.count ln ls)]
          rfl
        have hx := hmem.2
        rw [hb] at hx
        cases hx
      unfold isBoilerLine
      rw [decide_eq_false (by omega : ¬ 2 ≤ List.count ln (removeBoiler ls)), Bool.and_false]
    · unfold isBoilerLine
      rw [decide_eq_false hlen, Bool.false_and]
  show List.filter (fun ln => !(isBoilerLine (removeBoiler ls) ln)) (removeBoiler ls) =
    removeBoiler ls
  rw [List.filter_eq_self]
  intro ln hln
  rw [key ln hln]
  rfl

theorem normalizeContent_idem (l : List Char) :
    normalizeContent (normalizeContent l) = normalizeContent l := by
  by_cases hz : cleanChars l = []
  · have h0 : normalizeContent l = [] := by
      unfold normalizeContent
      rw [hz]
      rfl
    rw [h0]
    rfl
  · have hparts : ∀ p ∈ splitNl (cleanChars l), GoodLine p :=
      splitNl_good (cleanChars l).length (cleanChars l) (Nat.le_refl _) hz
        (cleanChars_allWsNorm l) (cleanChars_noWsRun l)
        (cleanChars_head_not_ws l) (cleanChars_last_not_ws l)
    have hks : ∀ p ∈ removeBoiler (splitNl (cleanChars l)), GoodLine p :=
      fun p hp => hparts p (List.mem_filter.mp hp).1
    cases hksc : removeBoiler (splitNl (cleanChars l)) with
    | nil =>
      have hy : normalizeContent l = [] := by
        unfold normalizeContent stripBoiler
        rw [hksc]
        rfl
      rw [hy]
      rfl
    | cons k ks' =>
      have hkgoods : ∀ p ∈ k :: ks', GoodLine p := by
        rw [← hksc]
        exact hks
      have hy : normalizeContent l = joinNl (k :: ks') := by
        unfold normalizeContent stripBoiler
        rw [hksc]
      rw [hy]
      have hkne : k ≠ [] := (hkgoods k (List.mem_cons_self k ks')).ne
      have hynorm : allWsNorm (joinNl (k :: ks')) = true :=
        joinNl_norm _ fun p hp => (hkgoods p hp).norm
      have hyrun : noWsRun (joinNl (k :: ks')) = true :=
        joinNl_run _ hkgoods
      have hyhead : ∀ c, (joinNl (k :: ks')).head? = some c → isWsChar c = false := by
        intro c hc
        rw [joinNl_head? k ks' hkne] at hc
        exact (hkgoods k (List.mem_cons_self k ks')).headOk c hc
      have hylast := joinNl_lastOk (k :: ks') hkgoods
      have hclean : cleanChars (joinNl (k :: ks')) = joinNl (k :: ks') := by
        unfold cleanChars
        rw [collapseWs_fix hynorm hyrun]
        rw [ltrim_of_head_not_ws hyhead]
        exact rtrim_eq_self hylast
      have hsplit : splitNl (joinNl (k :: ks')) = k :: ks' :=
        splitNl_joinNl (k :: ks') (by simp) fun p hp => (hkgoods p hp).noNl
      have hrb : removeBoiler (k :: ks') = k :: ks' := by
        rw [← hksc]
        exact removeBoiler_stable (splitNl (cleanChars l))
      unfold normalizeContent stripBoiler
      rw [hclean, hsplit, hrb]

theorem normalizeContent_of_all_ws {l : List Char} (h : l.all isWsChar = true) :
    normalizeContent l = [] := by
  unfold normalizeContent
  rw [cleanChars_of_all_ws h]
  rfl

/-! ### Chunker, modelled from the spec (§4.3): walk the normalized content,
cut at the nearest preceding paragraph boundary within the per-chunk
character budget (4 characters per token), and fall back to a hard
character-offset cut when no boundary precedes the budget. -/

structure Chunk where
  index : Nat
  text : String
  estimated_tokens : Nat
  deriving DecidableEq, Repr

/-- Index of the last newline of the list, if any. -/
def lastNl : List Char → Option Nat
  | [] => none
  | c :: cs =>
    match lastNl cs with
    | some i => some (i + 1)
    | none => if c = '\n' then some 0 else none

/-- Length of the next chunk to cut from `l` under a budget of `maxChars`
characters: cut just after the last paragraph boundary inside the budget,
or hard-cut at the budget when no boundary precedes it. -/
def cutLen (l : List Char) (maxChars : Nat) : Nat :=
  match lastNl (l.take maxChars) with
  | some i => i + 1
  | none => max 1 maxChars

/-- Fuel-indexed chunk splitting (fuel at least the list length suffices). -/
def splitChunksFuel (maxChars : Nat) : Nat → List Char → List (List Char)
  | 0, _ => []
  | fuel + 1, l =>
    if l.isEmpty then []
    else if l.length ≤ maxChars then [l]
    else l.take (cutLen l maxChars) :: splitChunksFuel maxChars fuel (l.drop (cutLen l maxChars))

/-- Split a character list into budget-bounded contiguous pieces. -/
def splitChunks (maxChars : Nat) (l : List Char) : List (List Char) :=
  splitChunksFuel maxChars l.length l

/-- Attach 0-based indices and token estimates to the pieces. -/
def numberChunks : Nat → List (List Char) → List Chunk
  | _, [] => []
  | i, p :: ps =>
    { index := i, text := String.mk p, estimated_tokens := estimate_tokens (String.mk p) }
      :: numberChunks (i + 1) ps

/-- Modelled from the spec: `split(text, max_tokens_per_chunk)` of the missing
chunker, producing the ordered chunk sequence. -/
def split (text : String) (max_tokens_per_chunk : Nat) : List Chunk :=
  numberChunks 0 (splitChunks (max_tokens_per_chunk * 4) text.data)

theorem cutLen_pos (l : List Char) (maxChars : Nat) : 1 ≤ cutLen l maxChars := by
  cases hm : lastNl (l.take maxChars) with
  | none =>
    simp only [cutLen, hm]
    exact Nat.le_max_left 1 maxChars
  | some i =>
    simp only [cutLen, hm]
    omega

theorem lastNl_lt {l : List Char} {i : Nat} (h : lastNl l = some i) : i < l.length := by
  induction l generalizing i with
  | nil => cases h
  | cons c cs ih =>
    cases hr : lastNl cs with
    | some j =>
      simp only [lastNl, hr, Option.some.injEq] at h
      subst h
      have hj := ih hr
      simp only [List.length_cons]
      omega
    | none =>
      by_cases hc : c = '\n'
      · simp only [lastNl, hr, hc, if_true, Option.some.injEq] at h
        subst h
        simp
      · simp only [lastNl, hr, hc, if_false] at h
        cases h

theorem cutLen_le {l : List Char} {maxChars : Nat} (h1 : 1 ≤ maxChars) :
    cutLen l maxChars ≤ maxChars := by
  cases hm : lastNl (l.take maxChars) with
  | none =>
    simp only [cutLen, hm]
    rw [Nat.max_eq_right h1]
  | some i =>
    simp only [cutLen, hm]
    have := lastNl_lt hm
    rw [List.length_take] at this
    omega

theorem splitChunksFuel_flatten (maxChars : Nat) :
    ∀ fuel l, List.length l ≤ fuel → (splitChunksFuel maxChars fuel l).flatten = l := by
  intro fuel
  induction fuel with
  | zero =>
    intro l hl
    have : l = [] := List.eq_nil_of_length_eq_zero (by omega)
    subst this
    rfl
  | succ fuel ih =>
    intro l hl
    simp only [splitChunksFuel]
    by_cases hemp : l.isEmpty = true
    · rw [if_pos hemp]
      exact (List.isEmpty_iff.mp hemp).symm
    · rw [if_neg hemp]
      by_cases hle : l.length ≤ maxChars
      · rw [if_pos hle]
        simp
      · rw [if_neg hle]
        have hk := cutLen_pos l maxChars
        have hdrop : (l.drop (cutLen l maxChars)).length ≤ fuel := by
          rw [List.length_drop]
          omega
        simp only [List.flatten_cons]
        rw [ih _ hdrop, List.take_append_drop]

theorem splitChunks_flatten (maxChars : Nat) (l : List Char) :
    (splitChunks maxChars l).flatten = l :=
  splitChunksFuel_flatten maxChars l.length l (Nat.le_refl _)

theorem splitChunksFuel_length_le {maxChars : Nat} (h1 : 1 ≤ maxChars) :
    ∀ fuel l p, p ∈ splitChunksFuel maxChars fuel l → p.length ≤ maxChars := by
  intro fuel
  induction fuel with
  | zero => intro l p hp; cases hp
  | succ fuel ih =>
    intro l p hp
    simp only [splitChunksFuel] at hp
    by_cases hemp : l.isEmpty = true
    · rw [if_pos hemp] at hp; cases hp
    · rw [if_neg hemp] at hp
      by_cases hle : l.length ≤ maxChars
      · rw [if_pos hle] at hp
        simp only [List.mem_singleton] at hp
        subst hp
        exact hle
      · rw [if_neg hle] at hp
        simp only [List.mem_cons] at hp
        rcases hp with hp | hp
        · subst hp
          rw [List.length_take]
          have := cutLen_le (l := l) h1
          omega
        · exact ih _ _ hp

theorem foldl_append_mk (ps : List (List Char)) :
    ∀ acc : String, List.foldl (· ++ ·) acc (ps.map String.mk) = String.mk (acc.data ++ ps.flatten) := by
  induction ps with
  | nil =>
    intro acc
    show acc = String.mk (acc.data ++ [])
    rw [List.append_nil]
  | cons p rest ih =>
    intro acc
    show List.foldl (· ++ ·) (acc ++ String.mk p) (rest.map String.mk) = _
    rw [ih]
    show String.mk (acc.data ++ p ++ rest.flatten) = String.mk (acc.data ++ (p ++ rest.flatten))
    rw [List.append_assoc]

theorem join_map_mk (ps : List (List Char)) :
    String.join (ps.map String.mk) = String.mk ps.flatten := by
  show List.foldl _ "" (ps.map String.mk) = String.mk ps.flatten
  rw [foldl_append_mk]
  rfl

theorem numberChunks_map_text (i : Nat) (ps : List (List Char)) :
    (numberChunks i ps).map (fun c => c.text) = ps.map String.mk := by
  induction ps generalizing i with
  | nil => rfl
  | cons p rest ih => simp [numberChunks, ih]

theorem numberChunks_map_index (i : Nat) (ps : List (List Char)) :
    (numberChunks i ps).map (fun c => c.index) = List.range' i ps.length := by
  induction ps generalizing i with
  | nil => rfl
  | cons p rest ih => simp [numberChunks, ih, List.range']

theorem numberChunks_length (i : Nat) (ps : List (List Char)) :
    (numberChunks i ps).length = ps.length := by
  induction ps generalizing i with
  | nil => rfl
  | cons p rest ih => simp [numberChunks, ih]

theorem numberChunks_mem {c : Chunk} {i : Nat} {ps : List (List Char)}
    (h : c ∈ numberChunks i ps) :
    ∃ p ∈ ps, c.text = String.mk p ∧ c.estimated_tokens = estimate_tokens (String.mk p) := by
  induction ps generalizing i with
  | nil => cases h
  | cons p rest ih =>
    simp only [numberChunks, List.mem_cons] at h
    rcases h with h | h
    · exact ⟨p, List.mem_cons_self p rest, by rw [h], by rw [h]⟩
    · obtain ⟨q, hq, hqt⟩ := ih h
      exact ⟨q, List.mem_cons_of_mem p hq, hqt⟩

/-! ### Orchestrator, modelled from the spec (§4.4-§4.6, missing
`mapreduce_chain.py`), together with the dispatch of
`JobSummaryChain.run_summary` embedded from `src/chain.py`.  The external
model-call capability is an injected deterministic oracle; every model
invocation is recorded in a call trace so that call counts and stages can be
reasoned about. -/

inductive Stage where
  | direct
  | map
  | reduce
  deriving DecidableEq, Repr

/-- One attempted model invocation: which stage issued it, the chunk (or
batch) index, the retry attempt number, and the text handed to the model. -/
structure CallRecord where
  stage : Stage
  index : Nat
  attempt : Nat
  input : String
  deriving DecidableEq, Repr

/-- The injected model-call capability: `none` is a transport/model failure. -/
def ModelOracle : Type :=
  CallRecord → Option String

/-- Retry loop: attempt numbers `base, base+1, ...` until one call succeeds
or `remaining` attempts are exhausted; returns the outcome and the trace of
calls actually made. -/
def tryAttempts (oracle : ModelOracle) (st : Stage) (idx : Nat) (input : String) :
    Nat → Nat → Option String × List CallRecord
  | _, 0 => (none, [])
  | base, remaining + 1 =>
    match oracle ⟨st, idx, base, input⟩ with
    | some s => (some s, [⟨st, idx, base, input⟩])
    | none =>
      match tryAttempts oracle st idx input (base + 1) remaining with
      | (res, tr) => (res, ⟨st, idx, base, input⟩ :: tr)

/-- Map stage, modelled from the spec: each chunk in index order is
summarized with up to `max_retries` attempts; exhausted retries abort the
stage with a ModelInvocationError carrying the chunk index, and no
placeholder is synthesized. -/
def mapChunks (oracle : ModelOracle) (cfg : TokenConfig) :
    List Chunk → Except PyExc (List String) × List CallRecord
  | [] => (.ok [], [])
  | c :: rest =>
    match tryAttempts oracle .map c.index c.text 0 cfg.max_retries with
    | (some s, tr) =>
      match mapChunks oracle cfg rest with
      | (.ok ss, tr2) => (.ok (s :: ss), tr ++ tr2)
      | (.error e, tr2) => (.error e, tr ++ tr2)
    | (none, tr) =>
      (.error (.modelInvocationError c.index ("맵 단계 실패: 청크 " ++ toString c.index)), tr)

/-- One reduce pass over adjacent pairs of intermediate summaries: each pair
is merged by one model call (with retries); a leftover single summary passes
through. -/
def reduceBatchPass (oracle : ModelOracle) (cfg : TokenConfig) (level : Nat) :
    Nat → List String → Except PyExc (List String) × List CallRecord
  | _, [] => (.ok [], [])
  | _, [s] => (.ok [s], [])
  | bidx, a :: b :: rest =>
    match tryAttempts oracle .reduce bidx (a ++ "\n\n" ++ b) 0 cfg.max_retries with
    | (some s, tr) =>
      match reduceBatchPass oracle cfg level (bidx + 1) rest with
      | (.ok ss, tr2) => (.ok (s :: ss), tr ++ tr2)
      | (.error e, tr2) => (.error e, tr ++ tr2)
    | (none, tr) =>
      (.error (.modelInvocationError bidx ("리듀스 배치 실패: " ++ toString level)), tr)

/-- Reduce stage, modelled from the spec: merge the intermediate summaries
with one templated call when they fit the direct budget; otherwise reduce
batches level by level (each level strictly shrinks the list) and recurse. -/
def reduceParts (oracle : ModelOracle) (cfg : TokenConfig) (level : Nat) :
    Nat → List String → Except PyExc String × List CallRecord
  | 0, _ => (.error (.timeoutError "리듀스 단계 한도 초과"), [])
  | fuel + 1, parts =>
    if estimate_tokens (String.intercalate "\n\n" parts) ≤ cfg.direct_limit ∨ parts.length ≤ 1 then
      match tryAttempts oracle .reduce level (String.intercalate "\n\n" parts) 0 cfg.max_retries with
      | (some s, tr) => (.ok s, tr)
      | (none, tr) => (.error (.modelInvocationError level ("리듀스 단계 실패: " ++ toString level)), tr)
    else
      match reduceBatchPass oracle cfg level 0 parts with
      | (.ok batched, tr) =>
        match reduceParts oracle cfg (level + 1) fuel batched with
        | (r, tr2) => (r, tr ++ tr2)
      | (.error e, tr) => (.error e, tr)

/-- Modelled from the spec: `process_large_content` of the missing
`mapreduce_chain.py` (MapReduceJobChain).  Validation first: REJECT raises
ContentTooLargeError with zero model calls; otherwise chunk, map, reduce. -/
def process_large_content (oracle : ModelOracle) (cfg : TokenConfig) (content : String) :
    Except PyExc String × List CallRecord :=
  if (validate_content_size cfg content).stats.recommended_action = .reject then
    (.error (.contentTooLargeError "콘텐츠가 너무 큽니다"), [])
  else
    match mapChunks oracle cfg (split content cfg.max_tokens_per_chunk) with
    | (.error e, tr) => (.error e, tr)
    | (.ok parts, tr) =>
      match reduceParts oracle cfg 0 (parts.length + 1) parts with
      | (r, tr2) => (r, tr ++ tr2)

/-- The body of `JobSummaryChain.run_summary` (src/chain.py lines 79-103,
inside the try block): clean, validate, then either one direct single call
on the cleaned content or the map-reduce path on the cleaned content. -/
def runSummaryCore (oracle : ModelOracle) (cfg : TokenConfig) (job_content : String) :
    Except PyExc String × List CallRecord :=
  match clean_web_content job_content with
  | .error e => (.error e, [])
  | .ok cleaned =>
    if (validate_content_size cfg cleaned).needs_processing then
      process_large_content oracle cfg cleaned
    else
      match oracle ⟨.direct, 0, 0, cleaned⟩ with
      | some s => (.ok s, [⟨.direct, 0, 0, cleaned⟩])
      | none => (.error (.modelInvocationError 0 "직접 요약 실패"), [⟨.direct, 0, 0, cleaned⟩])

/-- `JobSummaryChain.run_summary` (src/chain.py lines 79-106): the whole body
runs inside a try/except that re-raises any exception as a plain generic
Exception with the message prefix 체인 실행 실패. -/
def run_summary (oracle : ModelOracle) (cfg : TokenConfig) (job_content : String) :
    Except PyExc String × List CallRecord :=
  match runSummaryCore oracle cfg job_content with
  | (.ok s, tr) => (.ok s, tr)
  | (.error e, tr) => (.error (.genericError ("체인 실행 실패: " ++ e.message)), tr)

/-! ### Theorems -/

/-- Claim C1: `validate_content_size` classifies by estimated token count
against the fixed thresholds (direct_limit < chunk_limit ≤ reject_limit):
an estimate at most `direct_limit` yields DIRECT, between `direct_limit`
(exclusive) and `reject_limit` (inclusive) yields CHUNK, above `reject_limit`
yields REJECT; `needs_processing` holds exactly when the estimate exceeds
`direct_limit`; in particular an estimate equal to `direct_limit` yields
DIRECT and equal to `direct_limit + 1` yields CHUNK. -/
theorem validate_content_size_classification (cfg : TokenConfig) (text : String)
    (h1 : cfg.direct_limit < cfg.chunk_limit) (h2 : cfg.chunk_limit ≤ cfg.reject_limit) :
    (estimate_tokens text ≤ cfg.direct_limit →
      (validate_content_size cfg text).stats.recommended_action = .direct) ∧
    (cfg.direct_limit < estimate_tokens text → estimate_tokens text ≤ cfg.reject_limit →
      (validate_content_size cfg text).stats.recommended_action = .chunk) ∧
    (cfg.reject_limit < estimate_tokens text →
      (validate_content_size cfg text).stats.recommended_action = .reject) ∧
    ((validate_content_size cfg text).needs_processing = true ↔
      cfg.direct_limit < estimate_tokens text) ∧
    (estimate_tokens text = cfg.direct_limit →
      (validate_content_size cfg text).stats.recommended_action = .direct) ∧
    (estimate_tokens text = cfg.direct_limit + 1 →
      (validate_content_size cfg text).stats.recommended_action = .chunk) := by
  simp only [validate_content_size]
  refine ⟨?_, ?_, ?_, ?_, ?_, ?_⟩
  · intro h
    simp [h]
  · intro hlo hhi
    rw [if_neg (by omega), if_pos hhi]
  · intro h
    rw [if_neg (by omega), if_neg (by omega)]
  · simp
  · intro h
    simp [h]
  · intro h
    rw [if_neg (by omega), if_pos (by omega)]

/-- Witness for C1 at a concrete configuration and text. -/
theorem validate_content_size_classification_witness :
    (validate_content_size ⟨2000, 3000, 4000, 800, 3⟩ "abcd").stats.recommended_action
      = .direct :=
  (validate_content_size_classification ⟨2000, 3000, 4000, 800, 3⟩ "abcd"
    (by decide) (by decide)).1 (by decide)

/-- Claim C6: the content normalizer is idempotent: whenever
`clean_web_content` succeeds on an input, running it again on its own output
returns that output unchanged. -/
theorem clean_web_content_idempotent (x y : String)
    (h : clean_web_content x = .ok y) : clean_web_content y = .ok y := by
  unfold clean_web_content at h ⊢
  split at h
  · cases h
  · rename_i hne
    simp only [Except.ok.injEq] at h
    subst h
    have hdata : (String.mk (normalizeContent x.data)).data = normalizeContent x.data := rfl
    rw [hdata, normalizeContent_idem]
    rw [if_neg hne]

/-- Witness for C6 at a concrete raw input with collapsed whitespace and a
repeated short navigation line that the boilerplate pass removes. -/
theorem clean_web_content_idempotent_witness :
    clean_web_content "hello world" = .ok "hello world" :=
  clean_web_content_idempotent "Menu\nhello   world\nMenu" "hello world" (by rfl)

/-- Claim C4: the chunks produced by `split` carry the indices 0,1,2,... in
order, and their text fields concatenated in index order exactly reconstruct
the input text (so the chunks are non-overlapping contiguous slices). -/
theorem split_reconstructs (text : String) (m : Nat) :
    String.join ((split text m).map fun c => c.text) = text ∧
    (split text m).map (fun c => c.index) = List.range (split text m).length := by
  constructor
  · show String.join ((numberChunks 0 (splitChunks (m * 4) text.data)).map fun c => c.text) = text
    rw [numberChunks_map_text, join_map_mk, splitChunks_flatten]
  · show (numberChunks 0 (splitChunks (m * 4) text.data)).map (fun c => c.index) = _
    rw [numberChunks_map_index]
    show _ = List.range (numberChunks 0 (splitChunks (m * 4) text.data)).length
    rw [numberChunks_length, List.range_eq_range']

/-- Claim C5: every chunk produced by `split text m` has an estimated token
count of at most `m` times 1.1, stated over naturals as
`10 * estimate_tokens ≤ 11 * m`. -/
theorem split_chunk_token_bound (text : String) (m : Nat) (hm : 1 ≤ m) :
    ∀ c ∈ split text m, 10 * estimate_tokens c.text ≤ 11 * m := by
  intro c hc
  obtain ⟨p, hp, htext, -⟩ := numberChunks_mem hc
  have hp' : p ∈ splitChunksFuel (m * 4) text.data.length text.data := hp
  have hmc : 1 ≤ m * 4 := by omega
  have hlen : p.length ≤ m * 4 := splitChunksFuel_length_le hmc _ _ _ hp'
  rw [htext]
  show 10 * ((String.mk p).length / 4) ≤ 11 * m
  have hml : (String.mk p).length = p.length := rfl
  rw [hml]
  omega

/-- Witness for C5 at a concrete text and budget. -/
theorem split_chunk_token_bound_witness :
    10 * estimate_tokens (Chunk.mk 0 "abcd" 1).text ≤ 11 * 1 :=
  split_chunk_token_bound "abcdefghij" 1 (by decide) (Chunk.mk 0 "abcd" 1) (by decide)

/-- Claim C3: the direct-path summary prompt template and the reduce-stage
prompt template embed a character-for-character identical heading block
(post-level heading for the posting title, company name, deadline, and the
three lettered sections A, B, C), so both paths enforce the same fixed
output schema. -/
theorem templates_share_heading_block :
    get_summary_template = summaryTemplateIntro ++ headingBlock ∧
    get_reduce_template = reduceTemplateIntro ++ headingBlock ∧
    (canonicalHeadings.all (fun h => strContains headingBlock h)) = true :=
  ⟨by decide, by decide, by decide⟩

/-- Claim C2: `run_summary` first cleans the content and validates its size,
then dispatches on the verdict: with `needs_processing` false it performs
exactly one direct single-call summarization of the cleaned content, and
with `needs_processing` true it invokes `process_large_content` on the
cleaned content and returns its result. -/
theorem run_summary_dispatch (oracle : ModelOracle) (cfg : TokenConfig)
    (x cleaned : String) (hclean : clean_web_content x = .ok cleaned) :
    ((validate_content_size cfg cleaned).needs_processing = false →
      runSummaryCore oracle cfg x =
        (match oracle ⟨.direct, 0, 0, cleaned⟩ with
         | some s => (.ok s, [⟨.direct, 0, 0, cleaned⟩])
         | none => (.error (.modelInvocationError 0 "직접 요약 실패"),
                    [⟨.direct, 0, 0, cleaned⟩]))) ∧
    ((validate_content_size cfg cleaned).needs_processing = true →
      runSummaryCore oracle cfg x = process_large_content oracle cfg cleaned) := by
  constructor
  · intro h
    simp only [runSummaryCore, hclean]
    rw [if_neg (by simp [h])]
  · intro h
    simp only [runSummaryCore, hclean]
    rw [if_pos (by simp [h])]

/-- Witness for C2 at a concrete input whose verdict is DIRECT. -/
theorem run_summary_dispatch_witness :
    runSummaryCore (fun _ => some "요약 결과") ⟨2000, 3000, 4000, 800, 3⟩ " hi  there " =
      (.ok "요약 결과", [⟨.direct, 0, 0, "hi there"⟩]) :=
  (run_summary_dispatch (fun _ => some "요약 결과") ⟨2000, 3000, 4000, 800, 3⟩
      " hi  there " "hi there" (by rfl)).1 (by rfl)

/-- Claim C7: on empty or whitespace-only input the pipeline fails with the
normalizer's ValidationError, with an empty call trace (zero model
invocations), and the outcome does not depend on the estimator's
configuration (the token estimator is never consulted). -/
theorem empty_input_fails_before_estimation (oracle : ModelOracle)
    (cfg cfg2 : TokenConfig) (x : String) (hws : x.data.all isWsChar = true) :
    runSummaryCore oracle cfg x = (.error (.validationError "빈 콘텐츠입니다"), []) ∧
    runSummaryCore oracle cfg x = runSummaryCore oracle cfg2 x := by
  have hclean : clean_web_content x = .error (.validationError "빈 콘텐츠입니다") := by
    unfold clean_web_content
    rw [normalizeContent_of_all_ws hws]
    rfl
  constructor
  · simp only [runSummaryCore, hclean]
  · simp only [runSummaryCore, hclean]

/-- Witness for C7 at a concrete whitespace-only input. -/
theorem empty_input_fails_before_estimation_witness :
    runSummaryCore (fun _ => some "요약") ⟨2000, 3000, 4000, 800, 3⟩ " \n " =
      (.error (.validationError "빈 콘텐츠입니다"), []) :=
  (empty_input_fails_before_estimation (fun _ => some "요약")
    ⟨2000, 3000, 4000, 800, 3⟩ ⟨1, 2, 3, 4, 5⟩ " \n " (by decide)).1

/-- Claim C8: when the estimated token count exceeds `reject_limit` (verdict
REJECT), `process_large_content` fails with ContentTooLargeError and an
empty call trace: zero model invocations happen on the rejection path. -/
theorem reject_raises_before_any_model_call (oracle : ModelOracle)
    (cfg : TokenConfig) (content : String)
    (hcfg1 : cfg.direct_limit < cfg.chunk_limit) (hcfg2 : cfg.chunk_limit ≤ cfg.reject_limit)
    (h : cfg.reject_limit < estimate_tokens content) :
    process_large_content oracle cfg content =
      (.error (.contentTooLargeError "콘텐츠가 너무 큽니다"), []) := by
  have hact : (validate_content_size cfg content).stats.recommended_action = .reject := by
    simp only [validate_content_size]
    rw [if_neg (by omega), if_neg (by omega)]
  unfold process_large_content
  rw [if_pos hact]

/-- Witness for C8 at a concrete oversized input. -/
theorem reject_raises_before_any_model_call_witness :
    process_large_content (fun _ => some "요약") ⟨0, 1, 1, 5, 3⟩ "aaaaaaaa" =
      (.error (.contentTooLargeError "콘텐츠가 너무 큽니다"), []) :=
  reject_raises_before_any_model_call (fun _ => some "요약") ⟨0, 1, 1, 5, 3⟩
    "aaaaaaaa" (by decide) (by decide) (by decide)

theorem tryAttempts_fst_none_iff (oracle : ModelOracle) (st : Stage) (idx : Nat)
    (input : String) :
    ∀ remaining base,
      (tryAttempts oracle st idx input base remaining).fst = none ↔
        ∀ a, a < remaining → oracle ⟨st, idx, base + a, input⟩ = none := by
  intro remaining
  induction remaining with
  | zero =>
    intro base
    constructor
    · intro _ a ha
      omega
    · intro _
      rfl
  | succ n ih =>
    intro base
    cases ho : oracle ⟨st, idx, base, input⟩ with
    | some s =>
      have hf : (tryAttempts oracle st idx input base (n + 1)).fst = some s := by
        simp only [tryAttempts, ho]
      constructor
      · intro h
        rw [hf] at h
        cases h
      · intro h
        have h0 := h 0 (by omega)
        rw [Nat.add_zero, ho] at h0
        cases h0
    | none =>
      have hf : (tryAttempts oracle st idx input base (n + 1)).fst =
          (tryAttempts oracle st idx input (base + 1) n).fst := by
        simp only [tryAttempts, ho]
      rw [hf, ih (base + 1)]
      constructor
      · intro h a ha
        cases a with
        | zero =>
          rw [Nat.add_zero]
          exact ho
        | succ k =>
          have hk := h k (by omega)
          rw [show base + 1 + k = base + (k + 1) by omega] at hk
          exact hk
      · intro h a ha
        have hk := h (a + 1) (by omega)
        rw [show base + (a + 1) = base + 1 + a by omega] at hk
        exact hk

theorem tryAttempts_trace_stage (oracle : ModelOracle) (st : Stage) (idx : Nat)
    (input : String) :
    ∀ remaining base r, r ∈ (tryAttempts oracle st idx input base remaining).snd →
      r.stage = st := by
  intro remaining
  induction remaining with
  | zero => intro base r hr; cases hr
  | succ n ih =>
    intro base r hr
    cases ho : oracle ⟨st, idx, base, input⟩ with
    | some s =>
      have hs : (tryAttempts oracle st idx input base (n + 1)).snd = [⟨st, idx, base, input⟩] := by
        simp only [tryAttempts, ho]
      rw [hs] at hr
      simp only [List.mem_singleton] at hr
      rw [hr]
    | none =>
      have hs : (tryAttempts oracle st idx input base (n + 1)).snd =
          ⟨st, idx, base, input⟩ :: (tryAttempts oracle st idx input (base + 1) n).snd := by
        simp only [tryAttempts, ho]
      rw [hs] at hr
      rcases List.mem_cons.mp hr with h | h
      · rw [h]
      · exact ih (base + 1) r h

theorem mapChunks_trace_stage (oracle : ModelOracle) (cfg : TokenConfig) :
    ∀ cs r, r ∈ (mapChunks oracle cfg cs).snd → r.stage = .map := by
  intro cs
  induction cs with
  | nil => intro r hr; cases hr
  | cons c rest ih =>
    intro r hr
    cases hta : tryAttempts oracle .map c.index c.text 0 cfg.max_retries with
    | mk res tr =>
      cases res with
      | some s =>
        cases hmc : mapChunks oracle cfg rest with
        | mk res2 tr2 =>
          cases res2 with
          | ok ss =>
            have hsnd : (mapChunks oracle cfg (c :: rest)).snd = tr ++ tr2 := by
              simp only [mapChunks, hta, hmc]
            rw [hsnd] at hr
            rcases List.mem_append.mp hr with h | h
            · exact tryAttempts_trace_stage oracle .map c.index c.text cfg.max_retries 0 r
                (by rw [hta]; exact h)
            · exact ih r (by rw [hmc]; exact h)
          | error e =>
            have hsnd : (mapChunks oracle cfg (c :: rest)).snd = tr ++ tr2 := by
              simp only [mapChunks, hta, hmc]
            rw [hsnd] at hr
            rcases List.mem_append.mp hr with h | h
            · exact tryAttempts_trace_stage oracle .map c.index c.text cfg.max_retries 0 r
                (by rw [hta]; exact h)
            · exact ih r (by rw [hmc]; exact h)
      | none =>
        have hsnd : (mapChunks oracle cfg (c :: rest)).snd = tr := by
          simp only [mapChunks, hta]
        rw [hsnd] at hr
        exact tryAttempts_trace_stage oracle .map c.index c.text cfg.max_retries 0 r
          (by rw [hta]; exact hr)

theorem mapChunks_fail (oracle : ModelOracle) (cfg : TokenConfig) :
    ∀ (cs : List Chunk) (i : Nat) (hi : i < cs.length),
      (∀ a, a < cfg.max_retries →
        oracle ⟨.map, (cs.get ⟨i, hi⟩).index, a, (cs.get ⟨i, hi⟩).text⟩ = none) →
      (∀ j (hj : j < i),
        ¬ ∀ a, a < cfg.max_retries →
          oracle ⟨.map, (cs.get ⟨j, by omega⟩).index, a, (cs.get ⟨j, by omega⟩).text⟩ = none) →
      (mapChunks oracle cfg cs).fst =
        .error (.modelInvocationError (cs.get ⟨i, hi⟩).index
          ("맵 단계 실패: 청크 " ++ toString (cs.get ⟨i, hi⟩).index)) := by
  intro cs
  induction cs with
  | nil =>
    intro i hi
    exact absurd hi (by simp)
  | cons c rest ih =>
    intro i hi hfail hprev
    cases i with
    | zero =>
      have hf : (tryAttempts oracle .map c.index c.text 0 cfg.max_retries).fst = none := by
        rw [tryAttempts_fst_none_iff]
        intro a ha
        have hx := hfail a ha
        rw [Nat.zero_add]
        exact hx
      cases hta : tryAttempts oracle .map c.index c.text 0 cfg.max_retries with
      | mk res tr =>
        rw [hta] at hf
        have hres : res = none := hf
        subst hres
        have hmc : (mapChunks oracle cfg (c :: rest)).fst =
            .error (.modelInvocationError c.index ("맵 단계 실패: 청크 " ++ toString c.index)) := by
          simp only [mapChunks, hta]
        exact hmc
    | succ k =>
      have h0 := hprev 0 (by omega)
      have hs : (tryAttempts oracle .map c.index c.text 0 cfg.max_retries).fst ≠ none := by
        intro hn
        apply h0
        intro a ha
        have hx := (tryAttempts_fst_none_iff oracle .map c.index c.text cfg.max_retries 0).mp hn a ha
        rw [Nat.zero_add] at hx
        exact hx
      obtain ⟨s, hsome⟩ : ∃ s, (tryAttempts oracle .map c.index c.text 0 cfg.max_retries).fst = some s := by
        cases hfst : (tryAttempts oracle .map c.index c.text 0 cfg.max_retries).fst with
        | none => exact absurd hfst hs
        | some s => exact ⟨s, rfl⟩
      have hi' : k < rest.length := by
        simp only [List.length_cons] at hi
        omega
      have hrec := ih k hi' (fun a ha => hfail a ha)
        (fun j hj => hprev (j + 1) (by omega))
      cases hta : tryAttempts oracle .map c.index c.text 0 cfg.max_retries with
      | mk res tr =>
        rw [hta] at hsome
        have hres : res = some s := hsome
        subst hres
        cases hmc2 : mapChunks oracle cfg rest with
        | mk res2 tr2 =>
          rw [hmc2] at hrec
          have hres2 : res2 =
              .error (.modelInvocationError (rest.get ⟨k, by omega⟩).index
                ("맵 단계 실패: 청크 " ++ toString (rest.get ⟨k, by omega⟩).index)) := hrec
          subst hres2
          simp only [mapChunks, hta, hmc2]
          rfl

/-- Claim C9: if the map call for some chunk fails on all of its retry
attempts (and every earlier chunk has a succeeding attempt), then
`process_large_content` aborts with a ModelInvocationError carrying that
chunk's index, the result is an error (no placeholder or partial summary is
returned), and no reduce-stage call ever appears in the trace. -/
theorem map_failure_aborts (oracle : ModelOracle) (cfg : TokenConfig) (content : String)
    (i : Nat)
    (hnr : (validate_content_size cfg content).stats.recommended_action ≠ .reject)
    (hi : i < (split content cfg.max_tokens_per_chunk).length)
    (hfail : ∀ a, a < cfg.max_retries →
      oracle ⟨.map, ((split content cfg.max_tokens_per_chunk).get ⟨i, hi⟩).index, a,
        ((split content cfg.max_tokens_per_chunk).get ⟨i, hi⟩).text⟩ = none)
    (hprev : ∀ j (hj : j < i),
      ¬ ∀ a, a < cfg.max_retries →
        oracle ⟨.map, ((split content cfg.max_tokens_per_chunk).get ⟨j, by omega⟩).index, a,
          ((split content cfg.max_tokens_per_chunk).get ⟨j, by omega⟩).text⟩ = none) :
    (process_large_content oracle cfg content).fst =
      .error (.modelInvocationError ((split content cfg.max_tokens_per_chunk).get ⟨i, hi⟩).index
        ("맵 단계 실패: 청크 " ++
          toString ((split content cfg.max_tokens_per_chunk).get ⟨i, hi⟩).index)) ∧
    ∀ r ∈ (process_large_content oracle cfg content).snd, r.stage = .map := by
  have hmf := mapChunks_fail oracle cfg (split content cfg.max_tokens_per_chunk) i hi hfail hprev
  cases hmc : mapChunks oracle cfg (split content cfg.max_tokens_per_chunk) with
  | mk res tr =>
    rw [hmc] at hmf
    have hres : res =
        .error (.modelInvocationError ((split content cfg.max_tokens_per_chunk).get ⟨i, hi⟩).index
          ("맵 단계 실패: 청크 " ++
            toString ((split content cfg.max_tokens_per_chunk).get ⟨i, hi⟩).index)) := hmf
    subst hres
    have hp : process_large_content oracle cfg content =
        (.error (.modelInvocationError ((split content cfg.max_tokens_per_chunk).get ⟨i, hi⟩).index
          ("맵 단계 실패: 청크 " ++
            toString ((split content cfg.max_tokens_per_chunk).get ⟨i, hi⟩).index)), tr) := by
      unfold process_large_content
      rw [if_neg hnr, hmc]
    constructor
    · rw [hp]
    · intro r hr
      rw [hp] at hr
      exact mapChunks_trace_stage oracle cfg _ r (by rw [hmc]; exact hr)

/-- Witness for C9: three chunks, the map calls for chunk index 2 fail on
every retry, earlier chunks succeed. -/
theorem map_failure_aborts_witness :
    (process_large_content
        (fun r => if r.stage == Stage.map && r.index == 2 then none else some "부분 요약")
        ⟨1, 2, 100, 1, 2⟩ "abcdefghijkl").fst =
      .error (.modelInvocationError 2 ("맵 단계 실패: 청크 " ++ toString 2)) :=
  (map_failure_aborts
    (fun r => if r.stage == Stage.map && r.index == 2 then none else some "부분 요약")
    ⟨1, 2, 100, 1, 2⟩ "abcdefghijkl" 2 (by decide) (by decide) (by decide) (by decide)).1

/-- Claim C10: `run_summary` catches every pipeline exception and re-raises
it as a plain generic exception whose message is 체인 실행 실패 followed by
the original error's message; the caller never observes the typed errors of
the taxonomy as the raised exception. -/
theorem run_summary_wraps (oracle : ModelOracle) (cfg : TokenConfig) (x : String)
    (e : PyExc) (tr : List CallRecord)
    (h : run_summary oracle cfg x = (.error e, tr)) :
    ∃ e0, (runSummaryCore oracle cfg x).fst = .error e0 ∧
      e = .genericError ("체인 실행 실패: " ++ e0.message) := by
  unfold run_summary at h
  cases hc : runSummaryCore oracle cfg x with
  | mk res tr0 =>
    rw [hc] at h
    cases res with
    | ok s => simp at h
    | error e0 =>
      simp only [Prod.mk.injEq, Except.error.injEq] at h
      refine ⟨e0, ?_, h.1.symm⟩
      rfl

/-- Witness for C10: the empty input makes the pipeline fail, and the raised
error is the generic wrapper with the prefixed message. -/
theorem run_summary_wraps_witness :
    ∃ e0, (runSummaryCore (fun _ => some "요약") ⟨2000, 3000, 4000, 800, 3⟩ "").fst = .error e0 ∧
      PyExc.genericError "체인 실행 실패: 빈 콘텐츠입니다" =
        .genericError ("체인 실행 실패: " ++ e0.message) :=
  run_summary_wraps (fun _ => some "요약") ⟨2000, 3000, 4000, 800, 3⟩ ""
    (.genericError "체인 실행 실패: 빈 콘텐츠입니다") [] (by rfl)

end JDScanner
